import Mathlib

/-!
Shallow embedding of `src/shell.py` (a pipeline-executing command shell).

Strings are modelled as Lean `String`/`List Char`.  Process-level effects
(fork, pipe, exec, waitpid) are modelled as pure data: each forked child is
recorded as a `ChildSpec`, the termination status of a successfully
exec'ed child is supplied externally by an oracle `σ : Nat → Status`, and
executable resolution (`find_executable`, a file-system query) is supplied
by an oracle `resolve : String → Option String`.  Input lines contain no
newline characters (they come from `input()`), so the regex dot and
character classes are modelled on that domain.
-/

namespace Shell

/-- The double-quote character `"`. -/
def dq : Char := Char.ofNat 34

/-- The single-quote character. -/
def sq : Char := Char.ofNat 39

/-- The backslash character. -/
def bslash : Char := Char.ofNat 92

/-- ASCII whitespace recognized by the regex class `\s` and `str.strip()`
(the source only ever meets ASCII input; the Unicode extras of Python's
`\s` are not modelled). -/
def isPySpace (c : Char) : Bool :=
  c = ' ' || c = Char.ofNat 9 || c = Char.ofNat 10 || c = Char.ofNat 13 ||
  c = Char.ofNat 11 || c = Char.ofNat 12

/-- `scanQuoted q cs`: the body scan of the regex alternative
`q(?:\\.|[^q\\])*q` of `_TOKEN_RE`, entered just after the opening quote
`q`.  Returns `some (inner, rest)` where `inner` is the run of characters
(escapes kept verbatim) up to the matching close quote and `rest` is what
follows the close quote; `none` when no closing quote exists (the
alternative fails and the regex falls through to `[^\s]+`).  The scan is
deterministic: a backslash always consumes the following character, a
bare `q` always closes. -/
def scanQuoted (q : Char) : List Char → Option (List Char × List Char)
  | [] => none
  | c :: rest =>
    if c = q then some ([], rest)
    else if c = bslash then
      match rest with
      | [] => none
      | d :: rest2 =>
        match scanQuoted q rest2 with
        | none => none
        | some (inner, r) => some (c :: d :: inner, r)
    else
      match scanQuoted q rest with
      | none => none
      | some (inner, r) => some (c :: inner, r)

/-- One match of `_TOKEN_RE` (`\s*( " .. " | ' .. ' | [^\s]+ )`): skip
whitespace, then try the quoted alternatives, falling back to the maximal
non-whitespace run.  Returns the raw token (quotes included, as
`m.group(1)` does) and the remaining input. -/
def nextToken (cs : List Char) : Option (List Char × List Char) :=
  let s := cs.dropWhile isPySpace
  match s with
  | [] => none
  | c :: rest =>
    if c = dq || c = sq then
      match scanQuoted c rest with
      | some (inner, r) => some (c :: (inner ++ [c]), r)
      | none => some (s.takeWhile (fun x => !isPySpace x), s.dropWhile (fun x => !isPySpace x))
    else
      some (s.takeWhile (fun x => !isPySpace x), s.dropWhile (fun x => !isPySpace x))

/-- `_TOKEN_RE.finditer`: repeatedly take the next token.  Each step
consumes at least one character, so `cs.length + 1` steps always
suffice; the explicit step count keeps the definition structurally
recursive and evaluable. -/
def tokenizeFuel : Nat → List Char → List (List Char)
  | 0, _ => []
  | fuel + 1, cs =>
    match nextToken cs with
    | none => []
    | some (t, r) => t :: tokenizeFuel fuel r

/-- All raw tokens of a line (`[m.group(1) for m in _TOKEN_RE.finditer(s)]`). -/
def tokenizeChars (cs : List Char) : List (List Char) :=
  tokenizeFuel (cs.length + 1) cs

/-- Python `str.replace(pat, rep)`: replace non-overlapping occurrences
left to right.  (The source never calls it with an empty pattern.)  The
step count `s.length + 1` suffices since each step consumes at least one
character. -/
def strReplaceFuel : Nat → List Char → List Char → List Char → List Char
  | 0, s, _, _ => s
  | fuel + 1, s, pat, rep =>
    match s with
    | [] => []
    | c :: rest =>
      if pat ≠ [] ∧ pat.isPrefixOf s then rep ++ strReplaceFuel fuel (s.drop pat.length) pat rep
      else c :: strReplaceFuel fuel rest pat rep

/-- Python `s.replace(pat, rep)`. -/
def strReplace (s pat rep : List Char) : List Char :=
  strReplaceFuel (s.length + 1) s pat rep

/-- The per-token post-processing of `split_cmdline`: strip surrounding
quotes when the token both starts and ends with the same quote character
and has length at least 2, then apply the three sequential replaces
unescaping `\"`, `\'` and `\\`. -/
def processToken (t : List Char) : List Char :=
  let t1 :=
    if t.length ≥ 2 ∧ ((t.head? = some dq ∧ t.getLast? = some dq) ∨
                       (t.head? = some sq ∧ t.getLast? = some sq))
    then (t.drop 1).dropLast else t
  strReplace (strReplace (strReplace t1 [bslash, dq] [dq]) [bslash, sq] [sq]) [bslash, bslash] [bslash]

/-- `split_cmdline` (src/shell.py lines 15-24): tokenize the raw line
with `_TOKEN_RE` and post-process each token. -/
def split_cmdline (s : String) : List String :=
  (tokenizeChars s.data).map (fun t => String.mk (processToken t))

/-- The accumulator loop of `parse_redirections` (src/shell.py lines
79-102): `argv`, `infile`, `outfile` mirror the Python locals; a `<` or
`>` consumes the next token as the file name (overwriting any earlier
capture), a trailing operator raises. -/
def parseRedirGo : List String → List String → Option String → Option String →
    Except String (List String × Option String × Option String)
  | [], argv, infile, outfile => .ok (argv, infile, outfile)
  | t :: rest, argv, infile, outfile =>
    if t = "<" then
      match rest with
      | [] => .error "missing file name after <"
      | f :: rest2 => parseRedirGo rest2 argv (some f) outfile
    else if t = ">" then
      match rest with
      | [] => .error "missing file name after >"
      | f :: rest2 => parseRedirGo rest2 argv infile (some f)
    else parseRedirGo rest (argv ++ [t]) infile outfile

/-- `parse_redirections` (src/shell.py lines 79-102). -/
def parse_redirections (tokens : List String) :
    Except String (List String × Option String × Option String) :=
  parseRedirGo tokens [] none none

/-- The loop of `split_pipeline` (src/shell.py lines 104-118): `cur` is
the segment being accumulated, `segs` the completed segments. -/
def splitPipelineGo : List String → List String → List (List String) →
    Except String (List (List String))
  | [], cur, segs =>
    if cur = [] then .error "missing command after |" else .ok (segs ++ [cur])
  | t :: rest, cur, segs =>
    if t = "|" then
      if cur = [] then .error "missing command before |"
      else splitPipelineGo rest [] (segs ++ [cur])
    else splitPipelineGo rest (cur ++ [t]) segs

/-- `split_pipeline` (src/shell.py lines 104-118). -/
def split_pipeline (tokens : List String) : Except String (List (List String)) :=
  splitPipelineGo tokens [] []

/-- Rejoining segments with a single `|` token between consecutive
segments (the claimed inverse of `split_pipeline`). -/
def joinPipes : List (List String) → List String
  | [] => []
  | s :: rest => s ++ (if rest = [] then [] else "|" :: joinPipes rest)

/-- Two adjacent `|` tokens occur somewhere in the list. -/
def adjacentPipes : List String → Bool
  | a :: b :: rest => (a == "|" && b == "|") || adjacentPipes (b :: rest)
  | _ => false

/-- Output channel of a message printed by the shell process itself. -/
inductive Chan where
  | stdout
  | stderr
  deriving DecidableEq

/-- Decoded wait status of a terminated child, as inspected through
`os.WIFEXITED` / `os.WEXITSTATUS` / `os.WIFSIGNALED` / `os.WTERMSIG`. -/
inductive Status where
  | exited (code : Nat)
  | signaled (sig : Nat)
  deriving DecidableEq

/-- The status value surfaced by the reporting code shared (textually
duplicated) by `run_command` lines 70-77 and `run_pipeline` lines
214-220: a non-zero normal exit prints its code, a signal prints
`128 + sig`, a zero exit is silent. -/
def statusReport : Status → Option Nat
  | .exited code => if code = 0 then none else some code
  | .signaled sig => some (128 + sig)

/-- The messages printed by that same reporting code, with their
channels (non-zero exit goes to stderr, signal report to stdout). -/
def reportLines : Status → List (Chan × String)
  | .exited code =>
    if code = 0 then []
    else [(.stderr, "Program terminated with exit code " ++ toString code ++ ".")]
  | .signaled sig =>
    [(.stdout, "Program terminated with exit code " ++ toString (128 + sig) ++ ".")]

/-- One forked child, as configured by the parent/child code before
`execve`: its argument vector, the redirection files applied, whether
its stdin/stdout were wired to a pipe, and its termination status (a
child whose executable fails to resolve prints to its own stderr and
exits 127; otherwise the status is the externally determined outcome of
the exec'ed program). -/
structure ChildSpec where
  argv : List String
  infile : Option String
  outfile : Option String
  pipeIn : Bool
  pipeOut : Bool
  status : Status
  deriving DecidableEq

/-- Observable outcome of a launch that did not raise: the children
forked (in fork order), how many were waited for, the status code
reported (if any), and the messages the shell process printed. -/
structure RunResult where
  children : List ChildSpec
  waitedCount : Nat
  reported : Option Nat
  msgs : List (Chan × String)
  deriving DecidableEq

/-- Outcome of `run_command` / `run_pipeline`: either a `ValueError`
escaped (carrying the children already forked at that point), or the
run completed. -/
inductive Outcome where
  | err (msg : String) (children : List ChildSpec)
  | ok (r : RunResult)
  deriving DecidableEq

/-- Error message and number of already-forked children, for an
`Outcome` that raised. -/
def Outcome.errInfo : Outcome → Option (String × Nat)
  | .err e cs => some (e, cs.length)
  | .ok _ => none

/-- `run_command` (src/shell.py lines 40-77).  Resolution happens in the
parent: on failure nothing is forked and `{prog}: command not found` is
printed to stdout.  Otherwise one child is forked with no pipes; `st` is
its termination status (the redirection/exec failure path `os._exit(1)`
is part of that external outcome).  Background skips the wait.  The
source would raise `IndexError` on an empty argv; `main` guarantees argv
is non-empty before calling, and that unreachable case is marked here by
an `err`. -/
def run_command (argv : List String) (infile outfile : Option String) (background : Bool)
    (resolve : String → Option String) (st : Status) : Outcome :=
  match argv with
  | [] => .err "IndexError" []
  | prog :: _ =>
    match resolve prog with
    | none => .ok ⟨[], 0, none, [(.stdout, prog ++ ": command not found")]⟩
    | some _ =>
      let child : ChildSpec := ⟨argv, infile, outfile, false, false, st⟩
      if background then .ok ⟨[child], 0, none, []⟩
      else .ok ⟨[child], 1, statusReport st, reportLines st⟩

/-- The tail of `run_pipeline` after the fork loop (src/shell.py lines
206-220): background returns at once; otherwise every recorded pid is
waited for in spawn order and `last_status` ends as the status of the
last pid (waiting on an explicit pid is insensitive to finish order).
`last_status` is initialized to 0, i.e. a silent normal exit, when there
are no pids. -/
def afterLoop (background : Bool) (children : List ChildSpec) : Outcome :=
  if background then .ok ⟨children, 0, none, []⟩
  else
    match children.getLast? with
    | none => .ok ⟨children, children.length, none, []⟩
    | some c => .ok ⟨children, children.length, statusReport c.status, reportLines c.status⟩

/-- The fork loop of `run_pipeline` (src/shell.py lines 129-204) over
the remaining segments, with `i` the index of the next segment and
`acc` the children forked so far.  Each iteration parses the segment's
redirections, re-checks the per-position legality rules, and only then
forks; a raise therefore escapes with the already-forked children in
`acc`.  A child whose executable does not resolve exits 127; otherwise
its status is `σ i`. -/
def runPipelineGo (resolve : String → Option String) (σ : Nat → Status)
    (background : Bool) (n : Nat) :
    List (List String) → Nat → List ChildSpec → Outcome
  | [], _, acc => afterLoop background acc
  | seg :: rest, i, acc =>
    match parse_redirections seg with
    | .error e => .err e acc
    | .ok (argv, infile, outfile) =>
      match argv with
      | [] => .err "empty command in pipeline" acc
      | prog :: args =>
        if i ≠ 0 ∧ infile.isSome then
          .err "input redirection only allowed on first command of pipeline" acc
        else if i ≠ n - 1 ∧ outfile.isSome then
          .err "output redirection only allowed on last command of pipeline" acc
        else
          let st := match resolve prog with
            | none => Status.exited 127
            | some _ => σ i
          runPipelineGo resolve σ background n rest (i + 1)
            (acc ++ [⟨prog :: args, infile, outfile, decide (i ≠ 0), decide (i ≠ n - 1), st⟩])

/-- `run_pipeline` (src/shell.py lines 120-220). -/
def run_pipeline (segments : List (List String)) (background : Bool)
    (resolve : String → Option String) (σ : Nat → Status) : Outcome :=
  runPipelineGo resolve σ background segments.length segments 0 []

/-- The validation performed by one iteration of the `run_pipeline` fork
loop on segment `i` of `n`, as an error-or-none value: parse failure,
empty argv, input redirection off the first segment, output redirection
off the last. -/
def segCheck (n i : Nat) (seg : List String) : Option String :=
  match parse_redirections seg with
  | .error e => some e
  | .ok (argv, infile, outfile) =>
    match argv with
    | [] => some "empty command in pipeline"
    | _ :: _ =>
      if i ≠ 0 ∧ infile.isSome then
        some "input redirection only allowed on first command of pipeline"
      else if i ≠ n - 1 ∧ outfile.isSome then
        some "output redirection only allowed on last command of pipeline"
      else none

/-- The child that the fork loop creates for a valid segment `i` of `n`
(`none` when the segment fails validation and no child is forked). -/
def mkChild (resolve : String → Option String) (σ : Nat → Status) (n i : Nat)
    (seg : List String) : Option ChildSpec :=
  match parse_redirections seg with
  | .error _ => none
  | .ok (argv, infile, outfile) =>
    match argv with
    | [] => none
    | prog :: args =>
      if i ≠ 0 ∧ infile.isSome then none
      else if i ≠ n - 1 ∧ outfile.isSome then none
      else
        some ⟨prog :: args, infile, outfile, decide (i ≠ 0), decide (i ≠ n - 1),
              match resolve prog with
              | none => Status.exited 127
              | some _ => σ i⟩

/-- What one iteration of `main` (src/shell.py lines 241-301) decides to
do with a line, just before process-level effects happen.  A
`syntaxError` is a caught `ValueError` from parsing (printed as
`Syntax error: ...`; nothing is launched for it).  `runPipe` / `runCmd`
record the exact invocation of `run_pipeline` / `run_command`. -/
inductive LineAction where
  | nothing
  | exitShell
  | syntaxError (msg : String)
  | cdRun (target : String)
  | runCmd (argv : List String) (infile outfile : Option String) (background : Bool)
  | runPipe (segs : List (List String)) (background : Bool)
  deriving DecidableEq

/-- `main` after the `&` handling (src/shell.py lines 273-301): the
pipeline branch when a `|` token is present, otherwise redirection
parsing, the `cd` built-in (`home` stands for
`os.environ.get("HOME", "/")`), or a plain command. -/
def dispatch (home : String) (tokens : List String) (background : Bool) : LineAction :=
  if "|" ∈ tokens then
    match split_pipeline tokens with
    | .error e => .syntaxError e
    | .ok segs => .runPipe segs background
  else
    match parse_redirections tokens with
    | .error e => .syntaxError e
    | .ok (argv, infile, outfile) =>
      match argv with
      | [] => .nothing
      | prog :: args =>
        if prog = "cd" then .cdRun (args.head?.getD home)
        else .runCmd (prog :: args) infile outfile background

/-- `main` from tokenization onward (src/shell.py lines 262-301): empty
token lists are skipped; a `&` that is exactly the last token sets the
background flag and is popped (a lone `&` is skipped). -/
def process_tokens (home : String) (tokens : List String) : LineAction :=
  if tokens = [] then .nothing
  else if tokens.getLast? = some "&" then
    let ts := tokens.dropLast
    if ts = [] then .nothing else dispatch home ts true
  else dispatch home tokens false

/-- Python `str.strip()` restricted to ASCII whitespace. -/
def pyStrip (cs : List Char) : List Char :=
  ((cs.dropWhile isPySpace).reverse.dropWhile isPySpace).reverse

/-- One `main` loop iteration on a read line (src/shell.py lines
254-301): blank lines are skipped, the stripped literal `exit` ends the
loop, everything else is tokenized and dispatched. -/
def process_line (home : String) (line : String) : LineAction :=
  let l := pyStrip line.data
  if l = [] then .nothing
  else if l = "exit".data then .exitShell
  else process_tokens home ((tokenizeChars l).map (fun t => String.mk (processToken t)))

/-- Python `str.split("/")` (keeps empty components). -/
def splitOnSlash : List Char → List (List Char)
  | [] => [[]]
  | c :: rest =>
    let comps := splitOnSlash rest
    if c = '/' then [] :: comps
    else
      match comps with
      | [] => [[c]]
      | h :: t => (c :: h) :: t

/-- `posixpath.normpath`, the library routine `logical_pwd_update`
relies on: collapse empty and `.` components, resolve `..` components
textually, keep leading `..` on relative paths, and preserve one or
(exactly) two leading slashes. -/
def normpath (path : List Char) : List Char :=
  if path = [] then ['.']
  else
    let initSlashes : Nat :=
      if path.take 1 = ['/'] then
        if path.take 2 = ['/', '/'] ∧ path.take 3 ≠ ['/', '/', '/'] then 2 else 1
      else 0
    let comps := splitOnSlash path
    let newComps := comps.foldl (fun acc comp =>
      if comp = [] ∨ comp = ['.'] then acc
      else if comp ≠ ['.', '.'] ∨ (initSlashes = 0 ∧ acc = []) ∨
              (acc ≠ [] ∧ acc.getLast? = some ['.', '.']) then acc ++ [comp]
      else if acc ≠ [] then acc.dropLast
      else acc) []
    let joined := List.intercalate ['/'] newComps
    let p := List.replicate initSlashes '/' ++ joined
    if p = [] then ['.'] else p

/-- `posixpath.isabs`. -/
def isabs (path : List Char) : Bool := path.take 1 = ['/']

/-- `posixpath.join` for the two-argument call in `logical_pwd_update`. -/
def pathJoin (a b : List Char) : List Char :=
  if isabs b then b
  else if a = [] ∨ a.getLast? = some '/' then a ++ b
  else a ++ '/' :: b

/-- `logical_pwd_update` (src/shell.py lines 231-239): the previous
logical value is `PWD` when set, else the kernel's reported directory;
an absolute target replaces it outright, a relative target is joined and
normalized.  Returns the new `PWD` value. -/
def logical_pwd_update (oldPwd : Option (List Char)) (realCwd : List Char)
    (target : List Char) : List Char :=
  let old := oldPwd.getD realCwd
  if isabs target then normpath target else normpath (pathJoin old target)

/-- The directory state the `cd` built-in touches: the kernel's current
directory and the stored logical `PWD` value. -/
structure CdState where
  realCwd : List Char
  pwdVar : Option (List Char)
  deriving DecidableEq

/-- The `cd` branch of `main` (src/shell.py lines 292-299).  `chdir` is
the `os.chdir` oracle: `.ok newReal` means the kernel switched to that
directory, `.error e` means it raised `OSError(e)` leaving the process
directory untouched.  On success `logical_pwd_update` stores the new
logical value; on failure `cd: {e}` is printed and nothing changes. -/
def cd_builtin (chdir : List Char → Except String (List Char)) (st : CdState)
    (target : List Char) : CdState × Option String :=
  match chdir target with
  | .error e => (st, some ("cd: " ++ e))
  | .ok newReal =>
    (⟨newReal, some (logical_pwd_update st.pwdVar st.realCwd target)⟩, none)

/-- C1, counterexample.  The pipeline `cmd1 | cmd2 < f` places an input
redirection on the (non-first) second segment.  The claim says it is
rejected with zero child processes spawned, before any fork; but
`run_pipeline` validates each segment only when its loop iteration
reaches it, after forking the earlier segments: here the rejection
arrives carrying one already-forked child, not zero. -/
theorem run_pipeline_late_misplaced_redirection :
    run_pipeline [["cmd1"], ["cmd2", "<", "f"]] false (fun _ => some "/bin/cmd1")
        (fun _ => Status.exited 0) =
      Outcome.err "input redirection only allowed on first command of pipeline"
        [⟨["cmd1"], none, none, false, true, Status.exited 0⟩] ∧
    ([⟨["cmd1"], none, none, false, true, Status.exited 0⟩] : List ChildSpec).length ≠ 0 := by
  constructor
  · rfl
  · decide

/-- C2, counterexample.  On a command whose executable does not resolve,
the single-command path and the length-1 pipeline path observably
differ: `run_command` resolves in the parent, forks nothing, prints
`x: command not found` to stdout and reports no status, while
`run_pipeline` on the same one-segment pipeline forks a child that exits
127, waits for it, and reports exit code 127. -/
theorem run_command_vs_pipeline_resolution_failure :
    run_command ["x"] none none false (fun _ => none) (Status.exited 0) =
      Outcome.ok ⟨[], 0, none, [(Chan.stdout, "x: command not found")]⟩ ∧
    run_pipeline [["x"]] false (fun _ => none) (fun _ => Status.exited 0) =
      Outcome.ok ⟨[⟨["x"], none, none, false, false, Status.exited 127⟩], 1, some 127,
        [(Chan.stderr, "Program terminated with exit code 127.")]⟩ ∧
    run_command ["x"] none none false (fun _ => none) (Status.exited 0) ≠
      run_pipeline [["x"]] false (fun _ => none) (fun _ => Status.exited 0) := by
  refine ⟨rfl, rfl, ?_⟩
  decide

/-- C4.  The line `echo "a b` has an unterminated double quote.  The
spec mandates a reported syntax error; the code instead lets the quoted
regex alternative fail and falls back to `[^\s]+`, silently producing
the words `echo`, `"a` (quote character kept) and `b`, and runs them as
an ordinary command — no error is reported and the line is not
abandoned. -/
theorem split_cmdline_unterminated_quote_no_error :
    split_cmdline ("echo " ++ String.mk [dq] ++ "a b") =
      ["echo", String.mk [dq, 'a'], "b"] ∧
    process_line "/" ("echo " ++ String.mk [dq] ++ "a b") =
      LineAction.runCmd ["echo", String.mk [dq, 'a'], "b"] none none false := by
  constructor
  · rfl
  · rfl

/-- C5, counterexample.  In the line `echo "|" x` the pipe character
occurs only inside double quotes, yet — because the tokenizer strips the
quotes before `main` compares words against the operator strings — the
resulting word `|` acts as a pipeline separator: the line is executed as
the two-segment pipeline `echo | x`, not as a command with the ordinary
argument `|`. -/
theorem quoted_pipe_acts_as_separator :
    process_line "/" ("echo " ++ String.mk [dq, '|', dq] ++ " x") =
      LineAction.runPipe [["echo"], ["x"]] false ∧
    process_line "/" ("echo " ++ String.mk [dq, '|', dq] ++ " x") ≠
      LineAction.runCmd ["echo", "|", "x"] none none false := by
  constructor
  · rfl
  · decide

/-- C5, amended.  A backslash-escaped operator character in an unquoted
word is an ordinary argument (the backslash survives, since the minimal
unescape set rewrites only `\"`, `\'`, `\\`); but a quoted operator
character becomes the bare operator word after quote stripping and has
its full special meaning: quoted `|` separates a pipeline, quoted `&`
(as last word) marks background, quoted `<` captures a redirection. -/
theorem quoting_does_not_disarm_operators :
    process_line "/" ("echo " ++ String.mk [bslash] ++ "| x") =
      LineAction.runCmd ["echo", String.mk [bslash, '|'], "x"] none none false ∧
    String.mk [bslash, '|'] ≠ "|" ∧
    process_line "/" ("echo " ++ String.mk [dq, '|', dq] ++ " x") =
      LineAction.runPipe [["echo"], ["x"]] false ∧
    process_line "/" ("sleep 9 " ++ String.mk [dq, '&', dq]) =
      LineAction.runCmd ["sleep", "9"] none none true ∧
    process_line "/" ("cat " ++ String.mk [dq, '<', dq] ++ " f") =
      LineAction.runCmd ["cat"] (some "f") none false := by
  refine ⟨rfl, by decide, rfl, rfl, rfl⟩

/-- C6, counterexample.  In the line `sleep 5&` the `&` is directly
attached to the last word.  The claim says the pipeline is still marked
background with the `&` stripped; but the tokenizer folds `5&` into one
word, `main`'s `tokens[-1] == "&"` test fails, and the line runs as a
foreground command with literal argument `5&`. -/
theorem attached_ampersand_not_background :
    process_line "/" "sleep 5&" =
      LineAction.runCmd ["sleep", "5&"] none none false ∧
    process_line "/" "sleep 5&" ≠
      LineAction.runCmd ["sleep", "5"] none none true := by
  constructor
  · rfl
  · decide

theorem parseRedirGo_nil (argv : List String) (infile outfile : Option String) :
    parseRedirGo [] argv infile outfile = .ok (argv, infile, outfile) := rfl

theorem parseRedirGo_lt_nil (argv : List String) (infile outfile : Option String) :
    parseRedirGo ["<"] argv infile outfile = .error "missing file name after <" := rfl

theorem parseRedirGo_lt (f : String) (rest argv : List String)
    (infile outfile : Option String) :
    parseRedirGo ("<" :: f :: rest) argv infile outfile =
      parseRedirGo rest argv (some f) outfile := rfl

theorem parseRedirGo_gt_nil (argv : List String) (infile outfile : Option String) :
    parseRedirGo [">"] argv infile outfile = .error "missing file name after >" := rfl

theorem parseRedirGo_gt (f : String) (rest argv : List String)
    (infile outfile : Option String) :
    parseRedirGo (">" :: f :: rest) argv infile outfile =
      parseRedirGo rest argv infile (some f) := rfl

theorem parseRedirGo_other (t : String) (rest argv : List String)
    (infile outfile : Option String) (h1 : ¬t = "<") (h2 : ¬t = ">") :
    parseRedirGo (t :: rest) argv infile outfile =
      parseRedirGo rest (argv ++ [t]) infile outfile := by
  rw [parseRedirGo.eq_def]
  simp [h1, h2]

theorem parseRedirGo_ok_append (ys tokens argv : List String)
    (infile outfile : Option String) :
    ∀ a i o, parseRedirGo tokens argv infile outfile = .ok (a, i, o) →
      parseRedirGo (tokens ++ ys) argv infile outfile = parseRedirGo ys a i o := by
  induction tokens, argv, infile, outfile using parseRedirGo.induct with
  | case1 argv infile outfile =>
    intro a i o h
    rw [parseRedirGo_nil] at h
    obtain ⟨rfl, rfl, rfl⟩ := by simpa using h
    rw [List.nil_append]
  | case2 argv infile outfile =>
    intro a i o h
    rw [parseRedirGo_lt_nil] at h
    exact absurd h (by simp)
  | case3 argv infile outfile f rest2 ih =>
    intro a i o h
    rw [parseRedirGo_lt] at h
    rw [List.cons_append, List.cons_append, parseRedirGo_lt]
    exact ih a i o h
  | case4 argv infile outfile _ =>
    intro a i o h
    rw [parseRedirGo_gt_nil] at h
    exact absurd h (by simp)
  | case5 argv infile outfile f rest2 _ ih =>
    intro a i o h
    rw [parseRedirGo_gt] at h
    rw [List.cons_append, List.cons_append, parseRedirGo_gt]
    exact ih a i o h
  | case6 t rest argv infile outfile h1 h2 ih =>
    intro a i o h
    rw [parseRedirGo_other t rest argv infile outfile h1 h2] at h
    rw [List.cons_append, parseRedirGo_other t (rest ++ ys) argv infile outfile h1 h2]
    exact ih a i o h

theorem parseRedirGo_ok_sublist (tokens argv : List String)
    (infile outfile : Option String) :
    ∀ a i o, parseRedirGo tokens argv infile outfile = .ok (a, i, o) →
      ∃ a2, a = argv ++ a2 ∧ a2.Sublist tokens := by
  induction tokens, argv, infile, outfile using parseRedirGo.induct with
  | case1 argv infile outfile =>
    intro a i o h
    rw [parseRedirGo_nil] at h
    obtain ⟨rfl, rfl, rfl⟩ := by simpa using h
    exact ⟨[], by simp, List.nil_sublist _⟩
  | case2 argv infile outfile =>
    intro a i o h
    rw [parseRedirGo_lt_nil] at h
    exact absurd h (by simp)
  | case3 argv infile outfile f rest2 ih =>
    intro a i o h
    rw [parseRedirGo_lt] at h
    obtain ⟨a2, ha, hs⟩ := ih a i o h
    exact ⟨a2, ha, (hs.cons _).cons _⟩
  | case4 argv infile outfile _ =>
    intro a i o h
    rw [parseRedirGo_gt_nil] at h
    exact absurd h (by simp)
  | case5 argv infile outfile f rest2 _ ih =>
    intro a i o h
    rw [parseRedirGo_gt] at h
    obtain ⟨a2, ha, hs⟩ := ih a i o h
    exact ⟨a2, ha, (hs.cons _).cons _⟩
  | case6 t rest argv infile outfile h1 h2 ih =>
    intro a i o h
    rw [parseRedirGo_other t rest argv infile outfile h1 h2] at h
    obtain ⟨a2, ha, hs⟩ := ih a i o h
    refine ⟨t :: a2, ?_, hs.cons₂ _⟩
    simpa using ha

theorem parseRedirGo_error_msg (tokens argv : List String)
    (infile outfile : Option String) :
    ∀ e, parseRedirGo tokens argv infile outfile = .error e →
      e = "missing file name after <" ∨ e = "missing file name after >" := by
  induction tokens, argv, infile, outfile using parseRedirGo.induct with
  | case1 argv infile outfile =>
    intro e h
    rw [parseRedirGo_nil] at h
    exact absurd h (by simp)
  | case2 argv infile outfile =>
    intro e h
    rw [parseRedirGo_lt_nil] at h
    exact Or.inl (by simpa using h.symm)
  | case3 argv infile outfile f rest2 ih =>
    intro e h
    rw [parseRedirGo_lt] at h
    exact ih e h
  | case4 argv infile outfile _ =>
    intro e h
    rw [parseRedirGo_gt_nil] at h
    exact Or.inr (by simpa using h.symm)
  | case5 argv infile outfile f rest2 _ ih =>
    intro e h
    rw [parseRedirGo_gt] at h
    exact ih e h
  | case6 t rest argv infile outfile h1 h2 ih =>
    intro e h
    rw [parseRedirGo_other t rest argv infile outfile h1 h2] at h
    exact ih e h

theorem parseRedirGo_no_ops (tokens : List String) :
    ∀ argv infile outfile, "<" ∉ tokens → ">" ∉ tokens →
      parseRedirGo tokens argv infile outfile = .ok (argv ++ tokens, infile, outfile) := by
  induction tokens with
  | nil => intro argv infile outfile _ _; simp [parseRedirGo_nil]
  | cons t rest ih =>
    intro argv infile outfile h1 h2
    have ht1 : ¬t = "<" := fun h => h1 (h ▸ List.mem_cons_self t rest)
    have ht2 : ¬t = ">" := fun h => h2 (h ▸ List.mem_cons_self t rest)
    have h1r : "<" ∉ rest := fun h => h1 (List.mem_cons_of_mem t h)
    have h2r : ">" ∉ rest := fun h => h2 (List.mem_cons_of_mem t h)
    rw [parseRedirGo_other t rest argv infile outfile ht1 ht2,
        ih (argv ++ [t]) infile outfile h1r h2r]
    simp

/-- C7.  The Redirection Resolver scans left to right: on success the
argument vector is the non-operator words in their original order (a
sublist of the input); a further trailing `< f` / `> f` pair overwrites
the captured input/output path without error (last one wins); a
trailing operator with no following word fails with exactly the
`missing file name` error, and those are the only errors; a word
sequence without operators is returned whole as the argument vector. -/
theorem parse_redirections_spec (tokens : List String) (f : String) :
    (∀ a i o, parse_redirections tokens = .ok (a, i, o) →
      a.Sublist tokens ∧
      parse_redirections (tokens ++ ["<", f]) = .ok (a, some f, o) ∧
      parse_redirections (tokens ++ [">", f]) = .ok (a, i, some f) ∧
      parse_redirections (tokens ++ ["<"]) = .error "missing file name after <" ∧
      parse_redirections (tokens ++ [">"]) = .error "missing file name after >") ∧
    (∀ e, parse_redirections tokens = .error e →
      e = "missing file name after <" ∨ e = "missing file name after >") ∧
    ("<" ∉ tokens → ">" ∉ tokens → parse_redirections tokens = .ok (tokens, none, none)) := by
  unfold parse_redirections
  refine ⟨?_, ?_, ?_⟩
  · intro a i o h
    obtain ⟨a2, ha, hs⟩ := parseRedirGo_ok_sublist tokens [] none none a i o h
    refine ⟨by simpa [ha] using hs, ?_, ?_, ?_, ?_⟩
    · rw [parseRedirGo_ok_append ["<", f] tokens [] none none a i o h]; rfl
    · rw [parseRedirGo_ok_append [">", f] tokens [] none none a i o h]; rfl
    · rw [parseRedirGo_ok_append ["<"] tokens [] none none a i o h]; rfl
    · rw [parseRedirGo_ok_append [">"] tokens [] none none a i o h]; rfl
  · exact parseRedirGo_error_msg tokens [] none none
  · intro h1 h2
    simpa using parseRedirGo_no_ops tokens [] none none h1 h2

/-- C7, witness: instantiating the resolver specification at the word
sequence `ls` followed by the pair `< f`. -/
theorem parse_redirections_spec_witness :
    parse_redirections ["ls", "<", "f"] = .ok (["ls"], some "f", none) :=
  ((parse_redirections_spec ["ls"] "f").1 ["ls"] none none rfl).2.1

/-- Whether an `Except` value is an error. -/
def isErr {ε α : Type} : Except ε α → Bool
  | .error _ => true
  | .ok _ => false

theorem isErr_iff {ε α : Type} (x : Except ε α) :
    isErr x = true ↔ ∃ e, x = .error e := by
  cases x <;> simp [isErr]

/-- Abstract error trace of the `split_pipeline` loop: `curEmpty` records
whether the segment being accumulated is still empty. -/
def splitErr : List String → Bool → Bool
  | [], curEmpty => curEmpty
  | t :: rest, curEmpty =>
    if t = "|" then (curEmpty || splitErr rest true) else splitErr rest false

theorem splitPipelineGo_nil (cur : List String) (segs : List (List String)) :
    splitPipelineGo [] cur segs =
      if cur = [] then .error "missing command after |" else .ok (segs ++ [cur]) := rfl

theorem splitPipelineGo_cons (t : String) (rest cur : List String)
    (segs : List (List String)) :
    splitPipelineGo (t :: rest) cur segs =
      if t = "|" then
        if cur = [] then .error "missing command before |"
        else splitPipelineGo rest [] (segs ++ [cur])
      else splitPipelineGo rest (cur ++ [t]) segs := rfl

theorem splitErr_nil (b : Bool) : splitErr [] b = b := rfl

theorem splitErr_cons (t : String) (rest : List String) (b : Bool) :
    splitErr (t :: rest) b =
      if t = "|" then (b || splitErr rest true) else splitErr rest false := rfl

theorem splitPipelineGo_isErr (tokens : List String) :
    ∀ cur segs, isErr (splitPipelineGo tokens cur segs) = splitErr tokens cur.isEmpty := by
  induction tokens with
  | nil =>
    intro cur segs
    rw [splitPipelineGo_nil, splitErr_nil]
    cases cur <;> simp [isErr]
  | cons t rest ih =>
    intro cur segs
    rw [splitPipelineGo_cons, splitErr_cons]
    by_cases ht : t = "|"
    · rw [if_pos ht, if_pos ht]
      cases cur with
      | nil => simp [isErr]
      | cons c cs =>
        rw [if_neg (by simp), ih]
        simp
    · rw [if_neg ht, if_neg ht, ih]
      have hemp : (cur ++ [t]).isEmpty = false := by cases cur <;> rfl
      rw [hemp]

theorem splitErr_char (tokens : List String) :
    (splitErr tokens false = true ↔
      (tokens.getLast? = some "|" ∨ adjacentPipes tokens = true)) ∧
    (splitErr tokens true = true ↔
      (tokens = [] ∨ tokens.head? = some "|" ∨ tokens.getLast? = some "|" ∨
        adjacentPipes tokens = true)) := by
  induction tokens with
  | nil => simp [splitErr_nil, adjacentPipes]
  | cons t rest ih =>
    by_cases ht : t = "|"
    · subst ht
      constructor
      · rw [splitErr_cons, if_pos rfl]
        simp only [Bool.false_or]
        rw [ih.2]
        constructor
        · rintro (h | h | h | h)
          · subst h
            exact Or.inl rfl
          · cases rest with
            | nil => simp at h
            | cons b r =>
              refine Or.inr ?_
              have hb : b = "|" := by simpa using h
              simp [adjacentPipes, hb]
          · cases rest with
            | nil => simp at h
            | cons b r =>
              rw [List.getLast?_cons_cons]
              exact Or.inl h
          · cases rest with
            | nil => simp [adjacentPipes] at h
            | cons b r =>
              refine Or.inr ?_
              simp [adjacentPipes, h]
        · rintro (h | h)
          · cases rest with
            | nil => exact Or.inl rfl
            | cons b r =>
              rw [List.getLast?_cons_cons] at h
              exact Or.inr (Or.inr (Or.inl h))
          · cases rest with
            | nil => simp [adjacentPipes] at h
            | cons b r =>
              have h2 : b = "|" ∨ adjacentPipes (b :: r) = true := by
                simpa [adjacentPipes] using h
              rcases h2 with h2 | h2
              · exact Or.inr (Or.inl (by simp [h2]))
              · exact Or.inr (Or.inr (Or.inr h2))
      · rw [splitErr_cons, if_pos rfl]
        exact iff_of_true (by simp) (Or.inr (Or.inl rfl))
    · have hmain : splitErr rest false = true ↔
          ((t :: rest).getLast? = some "|" ∨ adjacentPipes (t :: rest) = true) := by
        rw [ih.1]
        constructor
        · rintro (h | h)
          · cases rest with
            | nil => simp at h
            | cons b r =>
              rw [List.getLast?_cons_cons]
              exact Or.inl h
          · cases rest with
            | nil => simp [adjacentPipes] at h
            | cons b r =>
              refine Or.inr ?_
              simp [adjacentPipes, h]
        · rintro (h | h)
          · cases rest with
            | nil =>
              have : t = "|" := by simpa using h
              exact absurd this ht
            | cons b r =>
              rw [List.getLast?_cons_cons] at h
              exact Or.inl h
          · cases rest with
            | nil => simp [adjacentPipes] at h
            | cons b r =>
              have h2 : (t = "|" ∧ b = "|") ∨ adjacentPipes (b :: r) = true := by
                simpa [adjacentPipes] using h
              rcases h2 with ⟨h2, _⟩ | h2
              · exact absurd h2 ht
              · exact Or.inr h2
      constructor
      · rw [splitErr_cons, if_neg ht]
        exact hmain
      · rw [splitErr_cons, if_neg ht, hmain]
        constructor
        · intro h
          exact Or.inr (Or.inr h)
        · rintro (h | h | h)
          · simp at h
          · have : t = "|" := by simpa using h
            exact absurd this ht
          · exact h

theorem splitPipelineGo_no_pipe (tokens : List String) :
    ∀ cur segs, "|" ∉ tokens → cur ++ tokens ≠ [] →
      splitPipelineGo tokens cur segs = .ok (segs ++ [cur ++ tokens]) := by
  induction tokens with
  | nil =>
    intro cur segs _ hne
    rw [splitPipelineGo_nil, if_neg (by simpa using hne)]
    simp
  | cons t rest ih =>
    intro cur segs hmem _
    have ht : ¬t = "|" := fun h => hmem (h ▸ List.mem_cons_self t rest)
    have hrest : "|" ∉ rest := fun h => hmem (List.mem_cons_of_mem t h)
    rw [splitPipelineGo_cons, if_neg ht, ih (cur ++ [t]) segs hrest (by simp)]
    simp

theorem joinPipes_cons (s : List String) (rest : List (List String)) :
    joinPipes (s :: rest) =
      s ++ (if rest = [] then [] else "|" :: joinPipes rest) := rfl

theorem joinPipes_concat_ne (c : List String) (segs : List (List String)) :
    segs ≠ [] → joinPipes (segs ++ [c]) = joinPipes segs ++ "|" :: c := by
  induction segs with
  | nil => intro h; exact absurd rfl h
  | cons s rest ih =>
    intro _
    rw [List.cons_append, joinPipes_cons, joinPipes_cons s rest]
    cases rest with
    | nil => simp [joinPipes_cons]
    | cons b r =>
      rw [if_neg (by simp), if_neg (by simp), ih (by simp)]
      simp

theorem splitPipelineGo_ok_inv (tokens : List String) :
    ∀ cur segs segs2, splitPipelineGo tokens cur segs = .ok segs2 →
      (∀ s ∈ segs, s ≠ []) →
      (∀ s ∈ segs2, s ≠ []) ∧
      joinPipes segs2 =
        (if segs = [] then cur ++ tokens else joinPipes segs ++ "|" :: (cur ++ tokens)) := by
  induction tokens with
  | nil =>
    intro cur segs segs2 h hne
    rw [splitPipelineGo_nil] at h
    by_cases hcur : cur = []
    · rw [if_pos hcur] at h
      exact absurd h (by simp)
    · rw [if_neg hcur] at h
      obtain rfl : segs ++ [cur] = segs2 := by simpa using h
      refine ⟨?_, ?_⟩
      · intro s hs
        rcases List.mem_append.mp hs with h1 | h1
        · exact hne s h1
        · simpa using (by simpa using h1) ▸ hcur
      · by_cases hsegs : segs = []
        · subst hsegs
          rw [if_pos rfl]
          simp [joinPipes_cons]
        · rw [if_neg hsegs, joinPipes_concat_ne cur segs hsegs]
          simp
  | cons t rest ih =>
    intro cur segs segs2 h hne
    rw [splitPipelineGo_cons] at h
    by_cases ht : t = "|"
    · subst ht
      rw [if_pos rfl] at h
      by_cases hcur : cur = []
      · rw [if_pos hcur] at h
        exact absurd h (by simp)
      · rw [if_neg hcur] at h
        have hne2 : ∀ s ∈ segs ++ [cur], s ≠ [] := by
          intro s hs
          rcases List.mem_append.mp hs with h1 | h1
          · exact hne s h1
          · simpa using (by simpa using h1) ▸ hcur
        obtain ⟨hall, hjoin⟩ := ih [] (segs ++ [cur]) segs2 h hne2
        refine ⟨hall, ?_⟩
        rw [hjoin, if_neg (by simp)]
        by_cases hsegs : segs = []
        · subst hsegs
          rw [if_pos rfl]
          simp [joinPipes_cons]
        · rw [joinPipes_concat_ne cur segs hsegs, if_neg hsegs]
          simp
    · rw [if_neg ht] at h
      obtain ⟨hall, hjoin⟩ := ih (cur ++ [t]) segs segs2 h hne
      refine ⟨hall, ?_⟩
      rw [hjoin]
      simp

/-- C8.  For a non-empty token list, splitting on the literal word `|`
fails exactly when the list starts or ends with `|` or contains two
adjacent `|` tokens (i.e. some segment is empty); a list without `|`
yields the single-segment pipeline; and when splitting fails, `main`'s
pipeline branch turns the raised error into a reported syntax error, so
no `run_pipeline` call (and no process) ever happens for that line. -/
theorem split_pipeline_spec (tokens : List String) (hne : tokens ≠ []) :
    ((∃ e, split_pipeline tokens = .error e) ↔
      (tokens.head? = some "|" ∨ tokens.getLast? = some "|" ∨
        adjacentPipes tokens = true)) ∧
    ("|" ∉ tokens → split_pipeline tokens = .ok [tokens]) ∧
    (∀ home bg e, split_pipeline tokens = .error e → "|" ∈ tokens →
      dispatch home tokens bg = .syntaxError e) := by
  refine ⟨?_, ?_, ?_⟩
  · rw [← isErr_iff]
    unfold split_pipeline
    rw [splitPipelineGo_isErr]
    simp only [List.isEmpty_nil]
    rw [(splitErr_char tokens).2]
    simp [hne]
  · intro hmem
    unfold split_pipeline
    rw [splitPipelineGo_no_pipe tokens [] [] hmem (by simpa using hne)]
    simp
  · intro home bg e herr hmem
    unfold dispatch
    rw [if_pos hmem, herr]

/-- C8, witness: the specification applied to the token list `ls`,
giving the single-segment pipeline. -/
theorem split_pipeline_spec_witness :
    split_pipeline ["ls"] = .ok [["ls"]] :=
  (split_pipeline_spec ["ls"] (by simp)).2.1 (by simp)

/-- C10.  Whenever the pipeline splitter succeeds, every returned
segment is non-empty, and rejoining the segments with a single `|`
token between consecutive segments reproduces the input token list. -/
theorem split_pipeline_round_trip (tokens : List String)
    (segs : List (List String)) (h : split_pipeline tokens = .ok segs) :
    (∀ s ∈ segs, s ≠ []) ∧ joinPipes segs = tokens := by
  obtain ⟨hall, hjoin⟩ := splitPipelineGo_ok_inv tokens [] [] segs h (by simp)
  exact ⟨hall, by simpa using hjoin⟩

/-- C10, witness: the round trip applied to the split of
`a | b`. -/
theorem split_pipeline_round_trip_witness :
    (∀ s ∈ [["a"], ["b"]], s ≠ ([] : List String)) ∧
      joinPipes [["a"], ["b"]] = ["a", "|", "b"] :=
  split_pipeline_round_trip ["a", "|", "b"] [["a"], ["b"]] rfl

/-- The children forked for a run of valid segments starting at index
`i` (stops at the first invalid segment; under the validity hypotheses
used below it covers the whole list). -/
def validChildren (resolve : String → Option String) (σ : Nat → Status) (n : Nat) :
    Nat → List (List String) → List ChildSpec
  | _, [] => []
  | i, seg :: rest =>
    match mkChild resolve σ n i seg with
    | none => []
    | some c => c :: validChildren resolve σ n (i + 1) rest

theorem runPipelineGo_nil (resolve : String → Option String) (σ : Nat → Status)
    (bg : Bool) (n i : Nat) (acc : List ChildSpec) :
    runPipelineGo resolve σ bg n [] i acc = afterLoop bg acc := rfl

theorem validChildren_nil (resolve : String → Option String) (σ : Nat → Status)
    (n i : Nat) : validChildren resolve σ n i [] = [] := rfl

theorem validChildren_cons (resolve : String → Option String) (σ : Nat → Status)
    (n i : Nat) (seg : List String) (rest : List (List String)) :
    validChildren resolve σ n i (seg :: rest) =
      match mkChild resolve σ n i seg with
      | none => []
      | some c => c :: validChildren resolve σ n (i + 1) rest := rfl

theorem runPipelineGo_bad (resolve : String → Option String) (σ : Nat → Status)
    (bg : Bool) (n : Nat) (seg : List String) (rest : List (List String))
    (i : Nat) (acc : List ChildSpec) (e : String)
    (h : segCheck n i seg = some e) :
    runPipelineGo resolve σ bg n (seg :: rest) i acc = .err e acc := by
  cases hp : parse_redirections seg with
  | error e2 =>
    simp only [segCheck, hp, Option.some.injEq] at h
    subst h
    simp [runPipelineGo, hp]
  | ok triple =>
    obtain ⟨argv, infile, outfile⟩ := triple
    cases argv with
    | nil =>
      simp only [segCheck, hp, Option.some.injEq] at h
      subst h
      simp [runPipelineGo, hp]
    | cons prog args =>
      simp only [segCheck, hp] at h
      simp only [runPipelineGo, hp]
      by_cases h1 : i ≠ 0 ∧ infile.isSome
      · rw [if_pos h1] at h
        rw [if_pos h1]
        have he : "input redirection only allowed on first command of pipeline" = e := by
          simpa using h
        rw [he]
      · rw [if_neg h1] at h
        rw [if_neg h1]
        by_cases h2 : i ≠ n - 1 ∧ outfile.isSome
        · rw [if_pos h2] at h
          rw [if_pos h2]
          have he : "output redirection only allowed on last command of pipeline" = e := by
            simpa using h
          rw [he]
        · rw [if_neg h2] at h
          exact absurd h (by simp)

theorem runPipelineGo_good (resolve : String → Option String) (σ : Nat → Status)
    (bg : Bool) (n : Nat) (seg : List String) (rest : List (List String))
    (i : Nat) (acc : List ChildSpec) (c : ChildSpec)
    (h : mkChild resolve σ n i seg = some c) :
    runPipelineGo resolve σ bg n (seg :: rest) i acc =
      runPipelineGo resolve σ bg n rest (i + 1) (acc ++ [c]) := by
  cases hp : parse_redirections seg with
  | error e2 =>
    simp only [mkChild, hp] at h
    exact absurd h (by simp)
  | ok triple =>
    obtain ⟨argv, infile, outfile⟩ := triple
    cases argv with
    | nil =>
      simp only [mkChild, hp] at h
      exact absurd h (by simp)
    | cons prog args =>
      simp only [mkChild, hp] at h
      simp only [runPipelineGo, hp]
      by_cases h1 : i ≠ 0 ∧ infile.isSome
      · rw [if_pos h1] at h
        simp at h
      · rw [if_neg h1] at h
        rw [if_neg h1]
        by_cases h2 : i ≠ n - 1 ∧ outfile.isSome
        · rw [if_pos h2] at h
          simp at h
        · rw [if_neg h2] at h
          rw [if_neg h2]
          have hc : (⟨prog :: args, infile, outfile, decide (i ≠ 0), decide (i ≠ n - 1),
              match resolve prog with
              | none => Status.exited 127
              | some _ => σ i⟩ : ChildSpec) = c := by
            simpa using h
          rw [← hc]

theorem mkChild_of_segCheck_none (resolve : String → Option String) (σ : Nat → Status)
    (n i : Nat) (seg : List String) (h : segCheck n i seg = none) :
    ∃ c, mkChild resolve σ n i seg = some c := by
  cases hp : parse_redirections seg with
  | error e2 =>
    simp only [segCheck, hp] at h
    exact absurd h (by simp)
  | ok triple =>
    obtain ⟨argv, infile, outfile⟩ := triple
    cases argv with
    | nil =>
      simp only [segCheck, hp] at h
      exact absurd h (by simp)
    | cons prog args =>
      simp only [segCheck, hp] at h
      simp only [mkChild, hp]
      by_cases h1 : i ≠ 0 ∧ infile.isSome
      · rw [if_pos h1] at h
        exact absurd h (by simp)
      · rw [if_neg h1] at h
        rw [if_neg h1]
        by_cases h2 : i ≠ n - 1 ∧ outfile.isSome
        · rw [if_pos h2] at h
          exact absurd h (by simp)
        · rw [if_neg h2]
          exact ⟨_, rfl⟩

theorem runPipelineGo_all_valid (resolve : String → Option String) (σ : Nat → Status)
    (bg : Bool) (n : Nat) (rest : List (List String)) :
    ∀ i acc, (∀ j seg, rest.get? j = some seg → segCheck n (i + j) seg = none) →
      runPipelineGo resolve σ bg n rest i acc =
        afterLoop bg (acc ++ validChildren resolve σ n i rest) := by
  induction rest with
  | nil =>
    intro i acc _
    rw [runPipelineGo_nil, validChildren_nil]
    simp
  | cons seg rest2 ih =>
    intro i acc hvalid
    have h0 : segCheck n i seg = none := by
      have := hvalid 0 seg (by simp)
      simpa using this
    obtain ⟨c, hc⟩ := mkChild_of_segCheck_none resolve σ n i seg h0
    rw [runPipelineGo_good resolve σ bg n seg rest2 i acc c hc]
    rw [ih (i + 1) (acc ++ [c]) ?_]
    · rw [validChildren_cons, hc]
      simp
    · intro j s hs
      have := hvalid (j + 1) s (by simpa using hs)
      have harith : i + (j + 1) = i + 1 + j := by omega
      rw [harith] at this
      exact this

theorem validChildren_length (resolve : String → Option String) (σ : Nat → Status)
    (n : Nat) (rest : List (List String)) :
    ∀ i, (∀ j seg, rest.get? j = some seg → segCheck n (i + j) seg = none) →
      (validChildren resolve σ n i rest).length = rest.length := by
  induction rest with
  | nil => intro i _; rw [validChildren_nil]; rfl
  | cons seg rest2 ih =>
    intro i hvalid
    have h0 : segCheck n i seg = none := by
      have := hvalid 0 seg (by simp)
      simpa using this
    obtain ⟨c, hc⟩ := mkChild_of_segCheck_none resolve σ n i seg h0
    rw [validChildren_cons, hc]
    simp only [List.length_cons]
    rw [ih (i + 1) ?_]
    intro j s hs
    have := hvalid (j + 1) s (by simpa using hs)
    have harith : i + (j + 1) = i + 1 + j := by omega
    rw [harith] at this
    exact this

theorem validChildren_get (resolve : String → Option String) (σ : Nat → Status)
    (n : Nat) (rest : List (List String)) :
    ∀ i j, (∀ j2 seg, rest.get? j2 = some seg → segCheck n (i + j2) seg = none) →
      (validChildren resolve σ n i rest).get? j =
        (rest.get? j).bind (mkChild resolve σ n (i + j)) := by
  induction rest with
  | nil => intro i j _; rw [validChildren_nil]; simp
  | cons seg rest2 ih =>
    intro i j hvalid
    have h0 : segCheck n i seg = none := by
      have := hvalid 0 seg (by simp)
      simpa using this
    obtain ⟨c, hc⟩ := mkChild_of_segCheck_none resolve σ n i seg h0
    rw [validChildren_cons, hc]
    cases j with
    | zero => simp [hc]
    | succ j2 =>
      simp only [List.get?_cons_succ]
      rw [ih (i + 1) j2 ?_]
      · have harith : i + 1 + j2 = i + (j2 + 1) := by omega
        rw [harith]
      · intro j3 s hs
        have := hvalid (j3 + 1) s (by simpa using hs)
        have harith : i + (j3 + 1) = i + 1 + j3 := by omega
        rw [harith] at this
        exact this

theorem runPipelineGo_first_bad (resolve : String → Option String) (σ : Nat → Status)
    (bg : Bool) (n : Nat) (e : String) :
    ∀ k (rest : List (List String)) (i : Nat) (acc : List ChildSpec) badSeg,
      rest.get? k = some badSeg →
      (∀ j seg, j < k → rest.get? j = some seg → segCheck n (i + j) seg = none) →
      segCheck n (i + k) badSeg = some e →
      ∃ acc2 : List ChildSpec,
        runPipelineGo resolve σ bg n rest i acc = .err e acc2 ∧
        acc2.length = acc.length + k := by
  intro k
  induction k with
  | zero =>
    intro rest i acc badSeg hget hok hbad
    cases rest with
    | nil => simp at hget
    | cons s rest2 =>
      obtain rfl : s = badSeg := by simpa using hget
      rw [Nat.add_zero] at hbad
      rw [runPipelineGo_bad resolve σ bg n s rest2 i acc e hbad]
      exact ⟨acc, rfl, by omega⟩
  | succ k2 ih =>
    intro rest i acc badSeg hget hok hbad
    cases rest with
    | nil => simp at hget
    | cons s rest2 =>
      have h0 : segCheck n i s = none := by
        have := hok 0 s (by omega) (by simp)
        simpa using this
      obtain ⟨c, hc⟩ := mkChild_of_segCheck_none resolve σ n i s h0
      rw [runPipelineGo_good resolve σ bg n s rest2 i acc c hc]
      have hok2 : ∀ j seg, j < k2 → rest2.get? j = some seg →
          segCheck n (i + 1 + j) seg = none := by
        intro j seg hj hgetj
        have := hok (j + 1) seg (by omega) (by simpa using hgetj)
        have harith : i + (j + 1) = i + 1 + j := by omega
        rw [harith] at this
        exact this
      have hbad2 : segCheck n (i + 1 + k2) badSeg = some e := by
        have harith : i + (k2 + 1) = i + 1 + k2 := by omega
        rw [harith] at hbad
        exact hbad
      obtain ⟨acc2, heq, hlen⟩ :=
        ih rest2 (i + 1) (acc ++ [c]) badSeg (by simpa using hget) hok2 hbad2
      refine ⟨acc2, heq, ?_⟩
      simp only [List.length_append, List.length_cons, List.length_nil] at hlen
      omega

/-- C1, amended.  A pipeline carrying an invalid segment — in particular
one with an input redirection off the first position or an output
redirection off the last — is rejected with the corresponding syntax
error and the offending segment itself is never forked; but the
rejection happens only when the fork loop reaches that segment: if the
first invalid segment has index `i`, exactly `i` child processes (one
per preceding valid segment) have already been forked when the error
escapes, which is zero only when `i = 0`. -/
theorem run_pipeline_first_invalid_forks (segs : List (List String))
    (resolve : String → Option String) (σ : Nat → Status) (bg : Bool)
    (i : Nat) (badSeg : List String) (e : String)
    (hget : segs.get? i = some badSeg)
    (hok : ∀ j seg, j < i → segs.get? j = some seg → segCheck segs.length j seg = none)
    (hbad : segCheck segs.length i badSeg = some e) :
    (run_pipeline segs bg resolve σ).errInfo = some (e, i) := by
  unfold run_pipeline
  have hok0 : ∀ j seg, j < i → segs.get? j = some seg →
      segCheck segs.length (0 + j) seg = none := by
    intro j seg hj hgetj
    rw [Nat.zero_add]
    exact hok j seg hj hgetj
  obtain ⟨acc2, heq, hlen⟩ :=
    runPipelineGo_first_bad resolve σ bg segs.length e i segs 0 [] badSeg hget hok0
      (by rw [Nat.zero_add]; exact hbad)
  rw [heq]
  unfold Outcome.errInfo
  simp only [List.length_nil, Nat.zero_add] at hlen
  simp [hlen]

/-- C1, amended, witness: `cmd1 | cmd2 < f` is rejected with the input
redirection error after exactly one fork. -/
theorem run_pipeline_first_invalid_forks_witness :
    (run_pipeline [["cmd1"], ["cmd2", "<", "f"]] false (fun _ => some "/bin/x")
        (fun _ => Status.exited 0)).errInfo =
      some ("input redirection only allowed on first command of pipeline", 1) :=
  run_pipeline_first_invalid_forks [["cmd1"], ["cmd2", "<", "f"]]
    (fun _ => some "/bin/x") (fun _ => Status.exited 0) false 1 ["cmd2", "<", "f"]
    "input redirection only allowed on first command of pipeline" rfl
    (by
      intro j seg hj hget
      have hj0 : j = 0 := by omega
      subst hj0
      obtain rfl : seg = ["cmd1"] := by simpa using hget.symm
      rfl)
    rfl

/-- C2, amended.  When the command's executable resolves, the
single-command path and the length-1 pipeline path agree exactly: one
child with the same argument vector, the same redirection files and no
pipe wiring, the same wait behaviour for foreground and background, and
identical status reporting.  (They diverge only on resolution failure,
see the counterexample: the single-command path forks nothing and
prints `command not found` in the parent, while the pipeline path forks
a child that exits 127 and reports exit code 127.) -/
theorem run_command_matches_singleton_pipeline (tokens argv : List String)
    (infile outfile : Option String) (bg : Bool)
    (resolve : String → Option String) (σ : Nat → Status)
    (prog : String) (args : List String) (p : String)
    (hparse : parse_redirections tokens = .ok (argv, infile, outfile))
    (hargv : argv = prog :: args)
    (hres : resolve prog = some p) :
    run_command argv infile outfile bg resolve (σ 0) =
      run_pipeline [tokens] bg resolve σ := by
  subst hargv
  have hchild : mkChild resolve σ 1 0 tokens =
      some ⟨prog :: args, infile, outfile, false, false, σ 0⟩ := by
    simp only [mkChild, hparse]
    rw [if_neg (by simp), if_neg (by simp)]
    simp [hres]
  unfold run_pipeline
  simp only [List.length_singleton]
  rw [runPipelineGo_good resolve σ bg 1 tokens [] 0 [] _ hchild, runPipelineGo_nil]
  simp only [run_command, hres, afterLoop, List.nil_append]
  cases bg with
  | true => simp
  | false => simp

/-- C2, amended, witness: the two paths coincide on the resolvable
single command `ls`. -/
theorem run_command_matches_singleton_pipeline_witness :
    run_command ["ls"] none none false (fun _ => some "/bin/ls") (Status.exited 0) =
      run_pipeline [["ls"]] false (fun _ => some "/bin/ls") (fun _ => Status.exited 0) :=
  run_command_matches_singleton_pipeline ["ls"] ["ls"] none none false
    (fun _ => some "/bin/ls") (fun _ => Status.exited 0) "ls" [] "/bin/ls" rfl rfl rfl

/-- C3.  For every valid foreground pipeline of `n` segments, exactly
`n` children are forked (each being the child `mkChild` prescribes for
its segment, so the last child's status is segment `n-1`'s: exit 127 on
resolution failure, otherwise the external outcome `σ (n-1)`), every
spawned process is waited for, and the reported status is computed from
the last segment's status alone — waiting on explicit pids makes this
independent of finish order: a non-zero exit code is reported as is, a
signal `s` as `128 + s`, and a zero exit reports nothing. -/
theorem run_pipeline_foreground_spec (segs : List (List String))
    (resolve : String → Option String) (σ : Nat → Status)
    (hne : segs ≠ [])
    (hvalid : ∀ i seg, segs.get? i = some seg → segCheck segs.length i seg = none) :
    ∃ r, run_pipeline segs false resolve σ = .ok r ∧
      r.children.length = segs.length ∧
      r.waitedCount = segs.length ∧
      (∀ j, r.children.get? j = (segs.get? j).bind (mkChild resolve σ segs.length j)) ∧
      ∃ lastChild, r.children.getLast? = some lastChild ∧
        r.reported = statusReport lastChild.status ∧
        (∀ c, lastChild.status = .exited c →
          r.reported = (if c = 0 then none else some c)) ∧
        (∀ s, lastChild.status = .signaled s → r.reported = some (128 + s)) := by
  have hvalid0 : ∀ j seg, segs.get? j = some seg →
      segCheck segs.length (0 + j) seg = none := by
    intro j seg h
    rw [Nat.zero_add]
    exact hvalid j seg h
  unfold run_pipeline
  rw [runPipelineGo_all_valid resolve σ false segs.length segs 0 [] hvalid0,
      List.nil_append]
  have hlen : (validChildren resolve σ segs.length 0 segs).length = segs.length :=
    validChildren_length resolve σ segs.length segs 0 hvalid0
  have hvcne : validChildren resolve σ segs.length 0 segs ≠ [] := by
    intro hh
    apply hne
    rw [hh] at hlen
    exact (List.length_eq_zero.mp hlen.symm)
  obtain ⟨lastC, hlast⟩ : ∃ c, (validChildren resolve σ segs.length 0 segs).getLast? = some c := by
    have := List.getLast?_isSome.mpr hvcne
    exact Option.isSome_iff_exists.mp this
  unfold afterLoop
  rw [if_neg (by simp), hlast]
  refine ⟨⟨validChildren resolve σ segs.length 0 segs,
           (validChildren resolve σ segs.length 0 segs).length,
           statusReport lastC.status, reportLines lastC.status⟩, rfl, hlen, hlen, ?_, ?_⟩
  · intro j
    have := validChildren_get resolve σ segs.length segs 0 j hvalid0
    rw [Nat.zero_add] at this
    exact this
  · refine ⟨lastC, hlast, rfl, ?_, ?_⟩
    · intro c hc
      show statusReport lastC.status = _
      rw [hc]
      rfl
    · intro s hs
      show statusReport lastC.status = _
      rw [hs]
      rfl

/-- C3, witness: the specification applied to the valid two-segment
pipeline `a | b` with both executables resolvable and zero exits. -/
theorem run_pipeline_foreground_spec_witness :
    ∃ r, run_pipeline [["a"], ["b"]] false (fun _ => some "/bin/x")
        (fun _ => Status.exited 0) = .ok r ∧
      r.children.length = 2 ∧
      r.waitedCount = 2 ∧
      (∀ j, r.children.get? j = (([["a"], ["b"]] : List (List String)).get? j).bind
        (mkChild (fun _ => some "/bin/x") (fun _ => Status.exited 0) 2 j)) ∧
      ∃ lastChild, r.children.getLast? = some lastChild ∧
        r.reported = statusReport lastChild.status ∧
        (∀ c, lastChild.status = .exited c →
          r.reported = (if c = 0 then none else some c)) ∧
        (∀ s, lastChild.status = .signaled s → r.reported = some (128 + s)) :=
  run_pipeline_foreground_spec [["a"], ["b"]] (fun _ => some "/bin/x")
    (fun _ => Status.exited 0) (by simp)
    (by
      intro i seg h
      match i with
      | 0 =>
        obtain rfl : seg = ["a"] := by simpa using h.symm
        rfl
      | 1 =>
        obtain rfl : seg = ["b"] := by simpa using h.symm
        rfl
      | (n + 2) => simp at h)

/-- C6, amended.  The `&` marks the pipeline as background exactly when
it stands as its own final token (which the tokenizer produces when it
is whitespace-separated — or quoted — but not when it is directly
attached to the preceding word, see the counterexample); the `&` token
is then stripped before command processing, and without a final `&`
token the line is dispatched foreground. -/
theorem trailing_ampersand_token (home : String) (ts : List String) (hne : ts ≠ []) :
    process_tokens home (ts ++ ["&"]) = dispatch home ts true ∧
    (ts.getLast? ≠ some "&" → process_tokens home ts = dispatch home ts false) := by
  constructor
  · unfold process_tokens
    rw [if_neg (by simp : ¬(ts ++ ["&"]) = []),
        if_pos (by rw [List.getLast?_concat] : (ts ++ ["&"]).getLast? = some "&")]
    simp only [List.dropLast_concat]
    rw [if_neg hne]
  · intro hlast
    unfold process_tokens
    rw [if_neg hne, if_neg hlast]

/-- C6, amended, witness: `sleep 9 &` with the `&` as its own token is
dispatched background with the `&` stripped. -/
theorem trailing_ampersand_token_witness :
    process_tokens "/" (["sleep", "9"] ++ ["&"]) = dispatch "/" ["sleep", "9"] true ∧
    ((["sleep", "9"] : List String).getLast? ≠ some "&" →
      process_tokens "/" ["sleep", "9"] = dispatch "/" ["sleep", "9"] false) :=
  trailing_ampersand_token "/" ["sleep", "9"] (by simp)

/-- C9.  When the kernel refuses the directory change, the `cd` built-in
reports the underlying error (prefixed `cd: `) and leaves the whole
directory state — the real working directory and the stored logical
`PWD` value — unchanged: `logical_pwd_update` runs only after a
successful `os.chdir`. -/
theorem cd_failure_preserves_state (chdir : List Char → Except String (List Char))
    (st : CdState) (target : List Char) (e : String)
    (h : chdir target = .error e) :
    cd_builtin chdir st target = (st, some ("cd: " ++ e)) := by
  unfold cd_builtin
  rw [h]

/-- C9, witness: `cd /nonexistent` failing with `ENOENT` leaves the
state untouched and reports the error. -/
theorem cd_failure_preserves_state_witness :
    cd_builtin (fun _ => .error "No such file or directory")
        ⟨"/home/u".data, some "/home/u".data⟩ "/nonexistent".data =
      (⟨"/home/u".data, some "/home/u".data⟩,
        some ("cd: " ++ "No such file or directory")) :=
  cd_failure_preserves_state (fun _ => .error "No such file or directory")
    ⟨"/home/u".data, some "/home/u".data⟩ "/nonexistent".data
    "No such file or directory" rfl

end Shell
